import Mathlib

/-!
# Parker-Square-Search: the Pell-based search, embedded and verified

Shallow embedding of `src/pell_equation_optimised_search.cpp`, executed by one
thread, and of the grid formulas of `src/brute_force_search.cpp`.

* GMP integers (`mpz_t`) are `Int`; `unsigned long long` loop counters and
  bounds are `Nat`.
* `mpz_sqrt` is the floor integer square root of a non-negative integer
  (the model is proved equal to `Int.sqrt`); `mpz_div_ui` is GMP's alias of
  `mpz_fdiv_q_ui`, floor division (`Int.fdiv`).
* The buffer `sols` together with `count` is the list of the entries written so
  far: the store `sols[count] = s; count++` appends `s`, the index written is
  the length of the list before the store.
-/

namespace ParkerSquare

/-! ## Data model -/

/-- A solution `(N, M)` of the Pell equation (source lines 10-13). -/
structure PellSolution where
  N : Int
  M : Int
deriving DecidableEq, Repr

/-! ## Perfect-square oracle (source lines 16-27) -/

/-- Largest `r ≤ k` with `r * r ≤ n` (`0` when there is none above it). -/
def floor_sqrt_upto (n : Nat) : Nat → Nat
  | 0 => 0
  | k + 1 => if (k + 1) * (k + 1) ≤ n then k + 1 else floor_sqrt_upto n k

/-- GMP `mpz_sqrt`: the truncated integer part of the square root of a
non-negative integer, the largest `r` with `r * r ≤ n`.  (The source never
calls it on a negative number; here such a call gives `0`.) -/
def mpz_sqrt (n : Int) : Int := (floor_sqrt_upto n.toNat n.toNat : Nat)

/-- Source `is_perfect_square`: negative numbers are rejected before the root
is taken, otherwise the floor root is squared and compared with `n`. -/
def is_perfect_square (n : Int) : Bool :=
  if n < 0 then false
  else
    let root := mpz_sqrt n
    let root := root * root
    root == n

/-! ## Pell solution generator (source lines 30-85) -/

/-- One iteration of the `for` loop of `generate_pell_solutions` (lines 38-78)
for the counter value `m`, on the buffer prefix `sols` written so far. -/
def pell_iteration (D : Int) (m : Nat) (sols : List PellSolution) : List PellSolution :=
  let M : Int := (m : Int)
  let temp := M * M
  let temp := temp * 2
  let N2 := D + temp
  if N2 < 0 then sols
  else if is_perfect_square N2 then
    let N := mpz_sqrt N2
    let sols := sols ++ [⟨N, M⟩]
    let sols := if N ≠ 0 then sols ++ [⟨-N, M⟩] else sols
    let sols := if M ≠ 0 then sols ++ [⟨N, -M⟩] else sols
    let sols := if N ≠ 0 ∧ M ≠ 0 then sols ++ [⟨-N, -M⟩] else sols
    sols
  else sols

/-- The loop `for (m = start; m <= limit; ++m)` with `todo` iterations left. -/
def pell_loop (D : Int) : Nat → Nat → List PellSolution → List PellSolution
  | 0, _, sols => sols
  | todo + 1, m, sols => pell_loop D todo (m + 1) (pell_iteration D m sols)

/-- Source `generate_pell_solutions(D, limit, sols)`: the loop runs for
`m = 1, ..., limit` on an initially empty buffer; the result is the written
prefix of `sols`, whose length is the returned `count`.  (The C counter `m` is
an `unsigned long long`: the loop performs exactly these `limit` iterations for
every `limit < 2^64 - 1`; for `limit = 2^64 - 1` the condition `m <= limit`
never fails and the C function has no result.  `count` is an `int` in the
source and a natural number here.) -/
def generate_pell_solutions (D : Int) (limit : Nat) : List PellSolution :=
  pell_loop D limit 1 []

/-- The entries one iteration appends: the loop body run on an empty buffer. -/
def pell_emitted (D : Int) (m : Nat) : List PellSolution := pell_iteration D m []

/-! ## Candidate assembly: the body of the pair loops (source lines 190-308) -/

/-- The nine cells of the square, in the order of `square[0..8]`
(source lines 148 and 282-290). -/
structure CandidateGrid where
  A : Int
  B : Int
  C : Int
  D_cell : Int
  E : Int
  F : Int
  G : Int
  H : Int
  I : Int
deriving DecidableEq, Repr

/-- The `mpz_t` variables the pair body has computed when it reaches the oracle
test at line 262. -/
structure Derived where
  e : Int
  a_val : Int
  c_val : Int
  b2 : Int
  d2 : Int
  f2 : Int
  h2 : Int
  i2 : Int
  g2 : Int
deriving DecidableEq, Repr

set_option linter.unusedVariables false in
/-- Source lines 190-259, statement by statement, for `(Y, X) = sols[i]` and
`(V, U) = sols[j]`: `none` when one of the two `continue`s (self-pairing at
line 195, `e1 != e2` at line 210) is taken.  Every `let` is one GMP call; a
variable assigned twice is shadowed, as the C variable is overwritten. -/
def derive_entries (Y X V U : Int) : Option Derived :=
  if Y = V ∧ X = U then none
  else
    let e1 := Y * Y
    let e := X * X
    let e := e * 2
    let e1 := e1 + e
    let e2 := V * V
    let e := U * U
    let e := e * 2
    let e2 := e2 + e
    if e1 ≠ e2 then none
    else
      let e := Int.fdiv e1 2
      let a_val := Y * Y
      let e := X * X
      let e := e * 2
      let a_val := a_val - e
      let a_val := Int.fdiv a_val 2
      let c_val := V * V
      let e := U * U
      let e := e * 2
      let c_val := c_val - e
      let c_val := Int.fdiv c_val 2
      let b2 := e * e
      let b2 := b2 * 3
      let e := a_val * a_val
      let b2 := b2 - e
      let e := c_val * c_val
      let b2 := b2 - e
      let d2 := e * e
      let f2 := a_val * a_val
      let d2 := d2 - f2
      let f2 := c_val * c_val
      let d2 := d2 + f2
      let f2 := e * e
      let h2 := a_val * a_val
      let f2 := f2 + h2
      let h2 := c_val * c_val
      let f2 := f2 - h2
      let h2 := a_val * a_val
      let i2 := c_val * c_val
      let h2 := h2 + i2
      let i2 := e * e
      let h2 := h2 - i2
      let i2 := e * e
      let i2 := i2 * 2
      let g2 := a_val * a_val
      let i2 := i2 - g2
      let g2 := e * e
      let g2 := g2 * 2
      let e := c_val * c_val
      let g2 := g2 - e
      some ⟨e, a_val, c_val, b2, d2, f2, h2, i2, g2⟩

/-- The oracle test of lines 262-264: all six derived entries are squares. -/
def passes_oracle (r : Derived) : Bool :=
  is_perfect_square r.b2 && is_perfect_square r.d2 && is_perfect_square r.f2 &&
    is_perfect_square r.h2 && is_perfect_square r.i2 && is_perfect_square r.g2

/-- Source lines 269-277: the square assembled from the derived entries. -/
def assemble_square (r : Derived) : CandidateGrid :=
  { A := r.a_val * r.a_val
    B := r.b2
    C := r.c_val * r.c_val
    D_cell := r.d2
    E := r.e * r.e
    F := r.f2
    G := r.g2
    H := r.h2
    I := r.i2 }

/-- The array `square[0..8]` of lines 282-290. -/
def CandidateGrid.square (g : CandidateGrid) : List Int :=
  [g.A, g.B, g.C, g.D_cell, g.E, g.F, g.G, g.H, g.I]

/-- The uniqueness loops of lines 293-302: every entry is compared with all
later ones; `false` as soon as two are equal. -/
def unique_check : List Int → Bool
  | [] => true
  | x :: rest => if rest.any (fun y => x == y) then false else unique_check rest

/-- The whole pair body (lines 190-308): `some g` exactly when the accept
branch (`unique` true, `total_candidates++`, the square printed) is reached
with the square `g`. -/
def pair_body (Y X V U : Int) : Option CandidateGrid :=
  match derive_entries Y X V U with
  | none => none
  | some r =>
    if passes_oracle r then
      let g := assemble_square r
      if unique_check g.square then some g else none
    else none

/-! ## Start of the sweep (source lines 128-135 and 179) -/

/-- Lines 133-135: the loaded checkpoint value `s` is kept when it lies in
`[D_min, D_max]` and replaced by `D_min` otherwise. -/
def start_D (D_min D_max s : Nat) : Nat :=
  if s < D_min ∨ s > D_max then D_min else s

/-- The values of `d` for which the body of the loop at line 179 runs, in
sequential order: `current_D_val, ..., D_max` (for `D_max < 2^64 - 1`). -/
def swept_discriminants (D_min D_max s : Nat) : List Nat :=
  List.range' (start_D D_min D_max s) (D_max + 1 - start_D D_min D_max s)

/-- The loop header of line 179 on the `unsigned long long` counter `d`, run
for at most `fuel` iterations from `d`: the values for which the body runs, and
whether the test `d <= D_max` has failed, ending the loop (`++d` wraps at
`2^64`). -/
def d_loop (D_max : Nat) : Nat → Nat → List Nat × Bool
  | 0, _ => ([], false)
  | fuel + 1, d =>
    if d ≤ D_max then
      let run := d_loop D_max fuel ((d + 1) % 2 ^ 64)
      (d :: run.1, run.2)
    else ([], true)

/-- Line 139: the argument `4ULL * pell_limit * 2 * sizeof(PellSolution)` of
`malloc`, evaluated in 64-bit unsigned arithmetic.  `entry_size` is
`sizeof(PellSolution)`, fixed by `gmp.h` and the platform (`32` where an
`mpz_t` takes 16 bytes). -/
def malloc_request (entry_size pell_limit : Nat) : Nat :=
  (4 * pell_limit * 2 * entry_size) % 2 ^ 64

/-- The number of whole `PellSolution` slots in the block that line 139
requests for `sols`. -/
def sols_capacity (entry_size pell_limit : Nat) : Nat :=
  malloc_request entry_size pell_limit / entry_size

/-! ## Checkpoint file (source lines 89-122)

The file is the list of its characters, `none` when it does not exist.  The
C library calls are modelled from their definition in the C standard:
`fprintf` with `"%llu %d\n"` writes the decimal digits of the two numbers, and
`fscanf` with `"%llu %d"` skips white space, reads an optionally signed run of
decimal digits for each conversion and reports how many conversions succeeded.
-/

/-- The character of a decimal digit `d < 10`. -/
def digit_char (d : Nat) : Char := Char.ofNat (48 + d)

/-- The value of a decimal digit character, `none` for any other character. -/
def digit_value (c : Char) : Option Nat :=
  if 48 ≤ c.toNat ∧ c.toNat ≤ 57 then some (c.toNat - 48) else none

/-- C `isspace` in the "C" locale: blank, `\t`, `\n`, `\v`, `\f`, `\r`. -/
def is_space (c : Char) : Bool :=
  c.toNat = 32 || (9 ≤ c.toNat && c.toNat ≤ 13)

/-- The decimal digits of `n`, most significant first (`fuel > n` suffices). -/
def decimal_digits : Nat → Nat → List Nat
  | 0, _ => []
  | fuel + 1, n => if n < 10 then [n] else decimal_digits fuel (n / 10) ++ [n % 10]

/-- Output of the conversion `%llu` for an `unsigned long long` value. -/
def print_unsigned (n : Nat) : List Char :=
  (decimal_digits (n + 1) n).map digit_char

/-- Output of the conversion `%d` for an `int` value. -/
def print_int (z : Int) : List Char :=
  if z < 0 then '-' :: print_unsigned z.natAbs else print_unsigned z.natAbs

/-- Line 119: the text `fprintf(fp, "%llu %d\n", D_val, total_candidates)` writes. -/
def fprintf_llu_d (D_val : Nat) (total_candidates : Int) : List Char :=
  print_unsigned D_val ++ ' ' :: (print_int total_candidates ++ ['\n'])

/-- White space skipped by `fscanf` before a conversion or for a blank in the
format. -/
def skip_space : List Char → List Char
  | [] => []
  | c :: cs => if is_space c then skip_space cs else c :: cs

/-- The longest run of decimal digits at the head of the input: its value on
top of `acc` (`none` when no digit has been `seen`) and the unread rest. -/
def scan_digits : List Char → Nat → Bool → Option Nat × List Char
  | [], acc, seen => (if seen then some acc else none, [])
  | c :: cs, acc, seen =>
    match digit_value c with
    | some d => scan_digits cs (10 * acc + d) true
    | none => (if seen then some acc else none, c :: cs)

/-- One integer conversion of `fscanf` (`%llu` and `%d` read the same subject
sequence): white space, an optional sign, at least one digit.  `none` is a
matching failure. -/
def scan_integer (text : List Char) : Option (Int × List Char) :=
  match skip_space text with
  | [] => none
  | c :: cs =>
    if c = '-' then
      match scan_digits cs 0 false with
      | (some v, rest) => some (-(v : Int), rest)
      | (none, _) => none
    else if c = '+' then
      match scan_digits cs 0 false with
      | (some v, rest) => some ((v : Int), rest)
      | (none, _) => none
    else
      match scan_digits (c :: cs) 0 false with
      | (some v, rest) => some ((v : Int), rest)
      | (none, _) => none

/-- The `unsigned long long` that `%llu` stores for the number `z` read: as
`strtoull` does, `ULLONG_MAX` when the magnitude does not fit, otherwise the
value, negated modulo `2^64` after a minus sign.  (The C standard leaves a
number that does not fit undefined; this is the GNU C library.) -/
def store_llu (z : Int) : Nat :=
  if 2 ^ 64 ≤ z.natAbs then 2 ^ 64 - 1 else (z % 2 ^ 64).toNat

/-- The `int` that `%d` stores for the number `z` read: the GNU C library
converts to a `long`, saturating at `LONG_MIN` and `LONG_MAX`, and keeps the
low 32 bits. -/
def store_int (z : Int) : Int :=
  let l := max (-(2 ^ 63)) (min z (2 ^ 63 - 1))
  (l + 2 ^ 31) % 2 ^ 32 - 2 ^ 31

/-- Line 99: `fscanf(fp, "%llu %d", D_val, total_candidates)`; `some` exactly
when the call returns `2`, with the two values stored. -/
def fscanf_llu_d (text : List Char) : Option (Nat × Int) :=
  match scan_integer text with
  | none => none
  | some (z1, rest) =>
    match scan_integer (skip_space rest) with
    | none => none
    | some (z2, _) => some (store_llu z1, store_int z2)

/-- Source `load_checkpoint`: the pair `(*D_val, *total_candidates)` it leaves;
`(0, 0)` when the file cannot be opened or `fscanf` does not return `2`. -/
def load_checkpoint (file : Option (List Char)) : Nat × Int :=
  match file with
  | none => (0, 0)
  | some text =>
    match fscanf_llu_d text with
    | some (D_val, total_candidates) => (D_val, total_candidates)
    | none => (0, 0)

/-- Source `save_checkpoint`: the file after the call.  When `fopen` fails
(`fopen_ok = false`) the function returns without writing; otherwise the file
is truncated and holds the text of line 119. -/
def save_checkpoint (fopen_ok : Bool) (file : Option (List Char))
    (D_val : Nat) (total_candidates : Int) : Option (List Char) :=
  if fopen_ok then some (fprintf_llu_d D_val total_candidates) else file

/-! ## The sweep (source lines 126-365), executed sequentially -/

/-- Lines 30-35: the six derived entries for the base squares `A`, `E`, `C`,
placed in the grid `A B C / D E F / G H I`. -/
def derived_grid (A E C : Int) : CandidateGrid :=
  let B := 3 * E - A - C
  let D := E + C - A
  let F := E + A - C
  let G := 2 * E - C
  let I := 2 * E - A
  let H := A + C - E
  { A := A, B := B, C := C, D_cell := D, E := E, F := F, G := G, H := H, I := I }

/-- Lines 25-35 for the loop variables `a`, `b`, `c`: the base squares
`A = a * a`, `E = b * b`, `C = c * c` and their derived entries. -/
def brute_force_grid (a b c : Int) : CandidateGrid :=
  derived_grid (a * a) (b * b) (c * c)

/-! ## Reference definitions, following the specification's wording -/

/-- The group of sign variants of a root pair `(N, M)` in the order the
specification fixes: `(N, M), (-N, M), (N, -M), (-N, -M)`, the `-N` entries
omitted when `N = 0`. -/
def sign_group (N M : Int) : List PellSolution :=
  if N = 0 then [⟨N, M⟩, ⟨N, -M⟩] else [⟨N, M⟩, ⟨-N, M⟩, ⟨N, -M⟩, ⟨-N, -M⟩]

/-- The value `s` clamped into `[D_min, D_max]`: the nearest bound when `s`
lies outside the range. -/
def clamp_into (D_min D_max s : Nat) : Nat :=
  if s < D_min then D_min else if s > D_max then D_max else s

/-- The entries as the specification derives them (section 4.3, steps 3-5):
`e = e1 / 2`, `a`, `c`, and the six formulas in `a`, `c` and that `e`. -/
def spec_entries (Y X V U : Int) : Derived :=
  let e := Int.fdiv (Y * Y + 2 * (X * X)) 2
  let a := Int.fdiv (Y * Y - 2 * (X * X)) 2
  let c := Int.fdiv (V * V - 2 * (U * U)) 2
  { e := e
    a_val := a
    c_val := c
    b2 := 3 * (e * e) - a * a - c * c
    d2 := e * e - a * a + c * c
    f2 := e * e + a * a - c * c
    h2 := a * a + c * c - e * e
    i2 := 2 * (e * e) - a * a
    g2 := 2 * (e * e) - c * c }

/-! ## Basic facts about the oracle -/

theorem floor_sqrt_upto_eq (n : Nat) :
    ∀ k : Nat, n < (k + 1) * (k + 1) → floor_sqrt_upto n k = Nat.sqrt n := by
  intro k
  induction k with
  | zero =>
    intro h
    have hn : n = 0 := by omega
    subst hn
    simp [floor_sqrt_upto]
  | succ k ih =>
    intro h
    unfold floor_sqrt_upto
    split_ifs with hle
    · exact Nat.eq_sqrt.mpr ⟨hle, h⟩
    · exact ih (by omega)

/-- The model of `mpz_sqrt` is the floor square root. -/
theorem mpz_sqrt_eq_sqrt (n : Int) : mpz_sqrt n = Int.sqrt n := by
  unfold mpz_sqrt Int.sqrt
  congr 1
  apply floor_sqrt_upto_eq
  nlinarith [Nat.zero_le n.toNat]

theorem mpz_sqrt_nonneg (n : Int) : 0 ≤ mpz_sqrt n := by
  rw [mpz_sqrt_eq_sqrt]; exact Int.sqrt_nonneg n

theorem is_perfect_square_iff (n : Int) :
    is_perfect_square n = true ↔ ∃ r : Int, r * r = n := by
  unfold is_perfect_square
  split_ifs with hneg
  · simp only [Bool.false_eq_true, false_iff]
    rintro ⟨r, hr⟩
    nlinarith [mul_self_nonneg r]
  · simp only [beq_iff_eq]
    rw [mpz_sqrt_eq_sqrt, Int.exists_mul_self]

/-- The root stored by the generator: for a square `N2 = r * r` it is `|r|`. -/
theorem mpz_sqrt_mul_self (r : Int) : mpz_sqrt (r * r) = |r| := by
  rw [mpz_sqrt_eq_sqrt, Int.sqrt_eq, Int.natCast_natAbs]

/-! ## The generator as a concatenation of per-`m` groups -/

/-- What one iteration appends, in closed form. -/
theorem pell_emitted_eq (D : Int) (m : Nat) :
    pell_emitted D m =
      if D + (m : Int) * m * 2 < 0 then []
      else if is_perfect_square (D + (m : Int) * m * 2) then
        [⟨mpz_sqrt (D + (m : Int) * m * 2), m⟩]
          ++ (if mpz_sqrt (D + (m : Int) * m * 2) ≠ 0
                then [⟨-mpz_sqrt (D + (m : Int) * m * 2), m⟩] else [])
          ++ (if (m : Int) ≠ 0 then [⟨mpz_sqrt (D + (m : Int) * m * 2), -(m : Int)⟩] else [])
          ++ (if mpz_sqrt (D + (m : Int) * m * 2) ≠ 0 ∧ (m : Int) ≠ 0
                then [⟨-mpz_sqrt (D + (m : Int) * m * 2), -(m : Int)⟩] else [])
      else [] := by
  unfold pell_emitted pell_iteration
  simp only [List.nil_append]
  split_ifs <;> simp_all

theorem pell_iteration_eq (D : Int) (m : Nat) (sols : List PellSolution) :
    pell_iteration D m sols = sols ++ pell_emitted D m := by
  unfold pell_emitted pell_iteration
  simp only [List.nil_append]
  split_ifs <;> simp

theorem pell_loop_eq (D : Int) :
    ∀ (todo m : Nat) (sols : List PellSolution),
      pell_loop D todo m sols = sols ++ (List.range' m todo).flatMap (pell_emitted D) := by
  intro todo
  induction todo with
  | zero => intro m sols; simp [pell_loop]
  | succ todo ih =>
    intro m sols
    rw [pell_loop, ih, pell_iteration_eq, List.range'_succ, List.flatMap_cons,
      List.append_assoc]

theorem generate_eq_flatMap (D : Int) (limit : Nat) :
    generate_pell_solutions D limit = (List.range' 1 limit).flatMap (pell_emitted D) := by
  unfold generate_pell_solutions
  rw [pell_loop_eq, List.nil_append]

/-- Membership in the group of one `m`: the Pell relation and `M = ±m`. -/
theorem mem_pell_emitted (D : Int) (m : Nat) (p : PellSolution) :
    p ∈ pell_emitted D m ↔
      p.N * p.N = D + 2 * ((m : Int) * m) ∧ (p.M = m ∨ p.M = -(m : Int)) := by
  obtain ⟨N, M⟩ := p
  rw [pell_emitted_eq]
  have hrw : D + (m : Int) * m * 2 = D + 2 * ((m : Int) * m) := by ring
  rw [hrw]
  constructor
  · intro h
    by_cases hneg : D + 2 * ((m : Int) * m) < 0
    · simp [if_pos hneg] at h
    by_cases hsq : is_perfect_square (D + 2 * ((m : Int) * m)) = true
    · obtain ⟨r, hr⟩ := (is_perfect_square_iff _).mp hsq
      have hroot : mpz_sqrt (D + 2 * ((m : Int) * m)) * mpz_sqrt (D + 2 * ((m : Int) * m))
          = D + 2 * ((m : Int) * m) := by
        rw [← hr, mpz_sqrt_mul_self, abs_mul_abs_self]
      rw [if_neg hneg, if_pos hsq] at h
      generalize mpz_sqrt (D + 2 * ((m : Int) * m)) = s at h hroot
      have hcases : (N = s ∨ N = -s) ∧ (M = m ∨ M = -(m : Int)) := by
        split_ifs at h <;>
          simp only [List.mem_append, List.mem_singleton, PellSolution.mk.injEq,
            List.append_nil, List.not_mem_nil, or_false] at h <;> omega
      refine ⟨?_, hcases.2⟩
      rcases hcases.1 with rfl | rfl
      · exact hroot
      · simpa using hroot
    · simp [if_neg hneg, if_neg hsq] at h
  · rintro ⟨hN, hM⟩
    simp only at hN hM
    have hnonneg : ¬ (D + 2 * ((m : Int) * m) < 0) := by
      rw [← hN]; nlinarith [mul_self_nonneg N]
    have hsq : is_perfect_square (D + 2 * ((m : Int) * m)) = true :=
      (is_perfect_square_iff _).mpr ⟨N, hN⟩
    have hroot : mpz_sqrt (D + 2 * ((m : Int) * m)) = |N| := by
      rw [← hN, mpz_sqrt_mul_self]
    rw [if_neg hnonneg, if_pos hsq, hroot]
    simp only [List.mem_append, List.mem_singleton, PellSolution.mk.injEq]
    rcases abs_cases N with ⟨habs, hN0⟩ | ⟨habs, hN0⟩
    · rcases hM with rfl | rfl
      · left; left; left; exact ⟨habs.symm, rfl⟩
      · by_cases hm : (m : Int) = 0
        · left; left; left; exact ⟨habs.symm, by rw [hm]; rfl⟩
        · left; right; rw [if_pos hm]; simp [habs]
    · have hne : |N| ≠ 0 := by rw [habs]; omega
      rcases hM with rfl | rfl
      · left; left; right; rw [if_pos hne]; simp [habs]
      · by_cases hm : (m : Int) = 0
        · left; left; right; rw [if_pos hne]; simp [habs, hm]
        · right; rw [if_pos ⟨hne, hm⟩]; simp [habs]

/-- Membership in the output of the generator. -/
theorem mem_generate (D : Int) (limit : Nat) (p : PellSolution) :
    p ∈ generate_pell_solutions D limit ↔
      ∃ m : Nat, 1 ≤ m ∧ m ≤ limit ∧
        p.N * p.N = D + 2 * ((m : Int) * m) ∧ (p.M = m ∨ p.M = -(m : Int)) := by
  rw [generate_eq_flatMap, List.mem_flatMap]
  constructor
  · rintro ⟨m, hm, hp⟩
    rw [List.mem_range'_1] at hm
    exact ⟨m, hm.1, by omega, (mem_pell_emitted D m p).mp hp⟩
  · rintro ⟨m, h1, h2, hp⟩
    exact ⟨m, List.mem_range'_1.mpr ⟨h1, by omega⟩, (mem_pell_emitted D m p).mpr hp⟩

theorem pell_emitted_length_le (D : Int) (m : Nat) : (pell_emitted D m).length ≤ 4 := by
  rw [pell_emitted_eq]
  split_ifs <;> simp

theorem pell_loop_length_le (D : Int) :
    ∀ (todo m : Nat) (sols : List PellSolution),
      (pell_loop D todo m sols).length ≤ sols.length + 4 * todo := by
  intro todo
  induction todo with
  | zero => intro m sols; simp [pell_loop]
  | succ todo ih =>
    intro m sols
    rw [pell_loop]
    have h1 := ih (m + 1) (pell_iteration D m sols)
    have h2 : (pell_iteration D m sols).length ≤ sols.length + 4 := by
      rw [pell_iteration_eq, List.length_append]
      have := pell_emitted_length_le D m
      omega
    omega

/-- The group of an `m ≥ 1` whose candidate `D + 2 m^2` has the non-negative
root `N` is the specification's sign group. -/
theorem pell_emitted_of_root (D : Int) (m : Nat) (N : Int) (hm : 1 ≤ m) (hN : 0 ≤ N)
    (hroot : N * N = D + 2 * ((m : Int) * m)) :
    pell_emitted D m = sign_group N m := by
  have hrw : D + (m : Int) * m * 2 = N * N := by rw [hroot]; ring
  have hm0 : (m : Int) ≠ 0 := by omega
  rw [pell_emitted_eq, hrw, mpz_sqrt_mul_self, abs_of_nonneg hN,
    if_neg (by nlinarith [mul_self_nonneg N]),
    if_pos ((is_perfect_square_iff _).mpr ⟨N, rfl⟩)]
  unfold sign_group
  by_cases h0 : N = 0
  · simp [h0, hm0]
  · simp [h0, hm0]

/-- No entry is emitted for an `m` whose candidate is not a square. -/
theorem pell_emitted_of_not_square (D : Int) (m : Nat)
    (h : ¬ ∃ N : Int, N * N = D + 2 * ((m : Int) * m)) : pell_emitted D m = [] := by
  have hrw : D + (m : Int) * m * 2 = D + 2 * ((m : Int) * m) := by ring
  have hns : ¬ is_perfect_square (D + 2 * ((m : Int) * m)) = true :=
    fun h2 => h ((is_perfect_square_iff _).mp h2)
  rw [pell_emitted_eq, hrw, if_neg hns, ite_self]

theorem pell_emitted_nodup (D : Int) (m : Nat) : (pell_emitted D m).Nodup := by
  rw [pell_emitted_eq]
  generalize mpz_sqrt (D + (m : Int) * m * 2) = s
  split_ifs <;> simp <;> omega

theorem generate_nodup (D : Int) (limit : Nat) : (generate_pell_solutions D limit).Nodup := by
  rw [generate_eq_flatMap, List.nodup_flatMap]
  refine ⟨fun m _ => pell_emitted_nodup D m, ?_⟩
  refine (List.pairwise_lt_range' 1 limit).imp ?_
  intro a b hab
  simp only [Function.onFun]
  rw [List.disjoint_left]
  intro p hpa hpb
  have ha := ((mem_pell_emitted D a p).mp hpa).2
  have hb := ((mem_pell_emitted D b p).mp hpb).2
  omega

/-- The entries of the output with `|M| = m` are the group emitted for `m`. -/
theorem filter_generate (D : Int) (limit m : Nat) (h1 : 1 ≤ m) (h2 : m ≤ limit) :
    (generate_pell_solutions D limit).filter (fun p => decide (p.M.natAbs = m))
      = pell_emitted D m := by
  have hsplit : List.range' 1 limit
      = List.range' 1 (m - 1) ++ ([m] ++ List.range' (m + 1) (limit - m)) := by
    have e1 : List.range' 1 limit = List.range' 1 (limit - m + 1 + (m - 1)) := by
      congr 1; omega
    have e2 : [m] ++ List.range' (m + 1) (limit - m) = List.range' (1 + (m - 1)) (limit - m + 1) := by
      rw [List.range'_succ]
      have : 1 + (m - 1) = m := by omega
      rw [this]; rfl
    rw [e1, e2, List.range'_append_1]
  have hother : ∀ a : Nat, a ≠ m →
      (pell_emitted D a).filter (fun p => decide (p.M.natAbs = m)) = [] := by
    intro a ha
    rw [List.filter_eq_nil_iff]
    intro p hp
    have := ((mem_pell_emitted D a p).mp hp).2
    simp only [decide_eq_true_eq]
    omega
  have hself : (pell_emitted D m).filter (fun p => decide (p.M.natAbs = m))
      = pell_emitted D m := by
    rw [List.filter_eq_self]
    intro p hp
    have := ((mem_pell_emitted D m p).mp hp).2
    simp only [decide_eq_true_eq]
    omega
  rw [generate_eq_flatMap, List.filter_flatMap, hsplit, List.flatMap_append,
    List.flatMap_append, List.flatMap_singleton, hself]
  have hl : (List.range' 1 (m - 1)).flatMap
      (fun a => (pell_emitted D a).filter (fun p => decide (p.M.natAbs = m))) = [] := by
    rw [List.flatMap_eq_nil_iff]
    intro a ha
    rw [List.mem_range'_1] at ha
    exact hother a (by omega)
  have hr : (List.range' (m + 1) (limit - m)).flatMap
      (fun a => (pell_emitted D a).filter (fun p => decide (p.M.natAbs = m))) = [] := by
    rw [List.flatMap_eq_nil_iff]
    intro a ha
    rw [List.mem_range'_1] at ha
    exact hother a (by omega)
  rw [hl, hr, List.nil_append, List.append_nil]

theorem generate_length_le (D : Int) (limit : Nat) :
    (generate_pell_solutions D limit).length ≤ 4 * limit := by
  have := pell_loop_length_le D limit 1 []
  simpa [generate_pell_solutions] using this

/-- The output for a larger limit begins with the output for a smaller one. -/
theorem generate_prefix (D : Int) (a b : Nat) :
    generate_pell_solutions D (a + b) =
      generate_pell_solutions D a ++ (List.range' (1 + a) b).flatMap (pell_emitted D) := by
  rw [generate_eq_flatMap, generate_eq_flatMap, ← List.flatMap_append, List.range'_append_1,
    Nat.add_comm a b]

/-- Without wrap-around the block of line 139 has `8 * pell_limit` slots. -/
theorem sols_capacity_eq (entry_size pell_limit : Nat) (hsize : 0 < entry_size)
    (hbytes : 4 * pell_limit * 2 * entry_size < 2 ^ 64) :
    sols_capacity entry_size pell_limit = 8 * pell_limit := by
  unfold sols_capacity malloc_request
  rw [Nat.mod_eq_of_lt hbytes, Nat.mul_div_cancel _ hsize]
  omega

/-! ## The pair body in closed form -/

theorem is_perfect_square_nonneg (n : Int) (h : is_perfect_square n = true) : 0 ≤ n := by
  obtain ⟨r, hr⟩ := (is_perfect_square_iff n).mp h
  rw [← hr]; exact mul_self_nonneg r

/-- What lines 190-259 leave in the variables, in terms of the inputs: `e` has
been reused as scratch and holds `c_val * c_val`; the terms built from `e * e`
are `(2 U^2)^2` in `b2` and `(c_val^2)^2` in the other five entries. -/
theorem derive_entries_some (Y X V U : Int) (r : Derived)
    (h : derive_entries Y X V U = some r) :
    ¬ (Y = V ∧ X = U) ∧ Y * Y + X * X * 2 = V * V + U * U * 2 ∧
    r.a_val = Int.fdiv (Y * Y - X * X * 2) 2 ∧
    r.c_val = Int.fdiv (V * V - U * U * 2) 2 ∧
    r.e = r.c_val * r.c_val ∧
    r.b2 = 12 * (U * U) * (U * U) - r.a_val * r.a_val - r.c_val * r.c_val ∧
    r.d2 = (r.c_val * r.c_val) * (r.c_val * r.c_val) - r.a_val * r.a_val + r.c_val * r.c_val ∧
    r.f2 = (r.c_val * r.c_val) * (r.c_val * r.c_val) + r.a_val * r.a_val - r.c_val * r.c_val ∧
    r.h2 = r.a_val * r.a_val + r.c_val * r.c_val - (r.c_val * r.c_val) * (r.c_val * r.c_val) ∧
    r.i2 = 2 * ((r.c_val * r.c_val) * (r.c_val * r.c_val)) - r.a_val * r.a_val ∧
    r.g2 = 2 * ((r.c_val * r.c_val) * (r.c_val * r.c_val)) - r.c_val * r.c_val := by
  unfold derive_entries at h
  split_ifs at h with hself
  simp only at h
  split_ifs at h with hne
  simp only [Option.some.injEq] at h
  subst h
  refine ⟨hself, not_not.mp hne, rfl, rfl, rfl, ?_, ?_, ?_, ?_, ?_, ?_⟩ <;> simp only <;> ring

theorem unique_check_iff (l : List Int) : unique_check l = true ↔ l.Nodup := by
  induction l with
  | nil => simp [unique_check]
  | cons x rest ih =>
    rw [unique_check, List.nodup_cons]
    by_cases hx : x ∈ rest
    · have : rest.any (fun y => x == y) = true := by
        rw [List.any_eq_true]; exact ⟨x, hx, by simp⟩
      simp [this, hx]
    · have : ¬ rest.any (fun y => x == y) = true := by
        rw [List.any_eq_true]
        rintro ⟨y, hy, hxy⟩
        simp only [beq_iff_eq] at hxy
        exact hx (hxy ▸ hy)
      simp [this, hx, ih]

/-- Two squares within `c^2` of `c^4`: if `c^4 - a^2 + c^2` and
`a^2 + c^2 - c^4` are both non-negative and `|c| ≥ 2`, then `a^2 = c^4`. -/
theorem sq_eq_of_bounds (a c : Int) (hc : 2 ≤ |c|)
    (hd : 0 ≤ (c * c) * (c * c) - a * a + c * c)
    (hh : 0 ≤ a * a + c * c - (c * c) * (c * c)) :
    a * a = (c * c) * (c * c) := by
  have hP : 4 ≤ c * c := by
    rw [← abs_mul_abs_self c]; nlinarith [abs_nonneg c]
  have hn : 0 ≤ |a| := abs_nonneg a
  have hQ : |a| * |a| = a * a := abs_mul_abs_self a
  have hPeq : |a| = c * c := by
    rcases lt_trichotomy |a| (c * c) with hlt | heq | hgt
    · exfalso
      have h1 : |a| ≤ c * c - 1 := by omega
      nlinarith
    · exact heq
    · exfalso
      have h1 : c * c + 1 ≤ |a| := by omega
      nlinarith
  rw [← hQ, hPeq]

/-- The accept branch is unreachable: whatever the four inputs, the pair body
ends in one of its `continue`s, fails the oracle test, or finds two equal
cells.  When the oracle test passes, `D_cell ≥ 0` and `H ≥ 0` force
`A = E` unless `|c_val| ≤ 1`, and then `C = E`. -/
theorem pair_body_eq_none (Y X V U : Int) : pair_body Y X V U = none := by
  unfold pair_body
  cases hder : derive_entries Y X V U with
  | none => rfl
  | some r =>
    simp only
    by_cases hpass : passes_oracle r = true
    · rw [if_pos hpass]
      obtain ⟨-, -, -, -, he, -, hd2, -, hh2, -, -⟩ := derive_entries_some Y X V U r hder
      unfold passes_oracle at hpass
      simp only [Bool.and_eq_true] at hpass
      obtain ⟨⟨⟨⟨⟨-, hd⟩, -⟩, hh⟩, -⟩, -⟩ := hpass
      have hd0 := is_perfect_square_nonneg _ hd
      have hh0 := is_perfect_square_nonneg _ hh
      rw [hd2] at hd0
      rw [hh2] at hh0
      have hnot : ¬ unique_check (assemble_square r).square = true := by
        rw [unique_check_iff]
        intro hnd
        simp only [CandidateGrid.square, assemble_square, List.nodup_cons, List.mem_cons,
          List.mem_singleton, not_or] at hnd
        obtain ⟨⟨-, -, -, hAE, -⟩, -, ⟨-, hCE, -⟩, -⟩ := hnd
        rw [he] at hAE hCE
        by_cases hc : 2 ≤ |r.c_val|
        · exact hAE (sq_eq_of_bounds _ _ hc hd0 hh0)
        · apply hCE
          have hlt : |r.c_val| < 2 := not_le.mp hc
          rw [abs_lt] at hlt
          have h3 : r.c_val = -1 ∨ r.c_val = 0 ∨ r.c_val = 1 := by omega
          rcases h3 with h | h | h <;> rw [h] <;> norm_num
      simp [hnot]
    · simp [hpass]

/-! ## Writing and reading the checkpoint text -/

theorem digit_char_facts (d : Nat) (h : d < 10) :
    digit_value (digit_char d) = some d ∧ is_space (digit_char d) = false ∧
      digit_char d ≠ '-' ∧ digit_char d ≠ '+' := by
  interval_cases d <;> decide

theorem decimal_digits_spec :
    ∀ (fuel n : Nat), n < fuel →
      (∀ d ∈ decimal_digits fuel n, d < 10) ∧ decimal_digits fuel n ≠ [] ∧
        (decimal_digits fuel n).foldl (fun a d => 10 * a + d) 0 = n := by
  intro fuel
  induction fuel with
  | zero => intro n h; omega
  | succ fuel ih =>
    intro n hn
    unfold decimal_digits
    split_ifs with hlt
    · refine ⟨?_, by simp, by simp⟩
      intro d hd
      simp only [List.mem_singleton] at hd
      omega
    · obtain ⟨h1, -, h3⟩ := ih (n / 10) (by omega)
      refine ⟨?_, by simp, ?_⟩
      · intro d hd
        rw [List.mem_append, List.mem_singleton] at hd
        rcases hd with hd | hd
        · exact h1 d hd
        · omega
      · rw [List.foldl_append, h3]
        simp only [List.foldl_cons, List.foldl_nil]
        omega

/-- Reading back a run of digits that is followed by no further digit. -/
theorem scan_digits_map (rest : List Char)
    (hrest : rest = [] ∨ ∃ c cs, rest = c :: cs ∧ digit_value c = none) :
    ∀ (ds : List Nat), (∀ d ∈ ds, d < 10) → ∀ (acc : Nat) (seen : Bool),
      scan_digits (ds.map digit_char ++ rest) acc seen =
        (if seen = true ∨ ds ≠ [] then some (ds.foldl (fun a d => 10 * a + d) acc) else none,
          rest) := by
  intro ds
  induction ds with
  | nil =>
    intro _ acc seen
    simp only [List.map_nil, List.nil_append, List.foldl_nil, ne_eq, not_true_eq_false,
      or_false]
    rcases hrest with h | ⟨c, cs, h, hc⟩
    · subst h; simp [scan_digits]
    · subst h; simp [scan_digits, hc]
  | cons d ds ih =>
    intro hall acc seen
    have hd : d < 10 := hall d (List.mem_cons_self d ds)
    have hds : ∀ x ∈ ds, x < 10 := fun x hx => hall x (List.mem_cons_of_mem d hx)
    have hstep : scan_digits (digit_char d :: (ds.map digit_char ++ rest)) acc seen
        = scan_digits (ds.map digit_char ++ rest) (10 * acc + d) true := by
      rw [scan_digits, (digit_char_facts d hd).1]
    rw [List.map_cons, List.cons_append, hstep, ih hds]
    simp

theorem skip_space_cons (c : Char) (cs : List Char) (h : is_space c = false) :
    skip_space (c :: cs) = c :: cs := by
  simp [skip_space, h]

/-- The head of a printed unsigned number is a digit. -/
theorem print_unsigned_eq (n : Nat) :
    ∃ (d : Nat) (ds : List Nat), d < 10 ∧ (∀ x ∈ ds, x < 10) ∧
      print_unsigned n = digit_char d :: ds.map digit_char ∧
      (d :: ds).foldl (fun a x => 10 * a + x) 0 = n := by
  obtain ⟨h1, h2, h3⟩ := decimal_digits_spec (n + 1) n (by omega)
  unfold print_unsigned
  cases hdd : decimal_digits (n + 1) n with
  | nil => exact absurd hdd h2
  | cons d ds =>
    rw [hdd] at h1 h3
    exact ⟨d, ds, h1 d (List.mem_cons_self d ds),
      fun x hx => h1 x (List.mem_cons_of_mem d hx), by simp, h3⟩

theorem scan_integer_print_unsigned (n : Nat) (rest : List Char)
    (hrest : rest = [] ∨ ∃ c cs, rest = c :: cs ∧ digit_value c = none) :
    scan_integer (print_unsigned n ++ rest) = some ((n : Int), rest) := by
  obtain ⟨d, ds, hd, hds, hp, hv⟩ := print_unsigned_eq n
  have hall : ∀ x ∈ d :: ds, x < 10 := by
    intro x hx
    rcases List.mem_cons.mp hx with h | h
    · rw [h]; exact hd
    · exact hds x h
  have hscan := scan_digits_map rest hrest (d :: ds) hall 0 false
  simp only [List.map_cons, hv, ne_eq, reduceCtorEq, not_false_eq_true, or_true,
    if_true] at hscan
  obtain ⟨-, hsp, hminus, hplus⟩ := digit_char_facts d hd
  unfold scan_integer
  rw [hp, List.cons_append, skip_space_cons _ _ hsp]
  simp only [hminus, hplus, if_false]
  rw [← List.cons_append, hscan]

theorem scan_integer_print_int (z : Int) (rest : List Char)
    (hrest : rest = [] ∨ ∃ c cs, rest = c :: cs ∧ digit_value c = none) :
    scan_integer (print_int z ++ rest) = some (z, rest) := by
  unfold print_int
  split_ifs with hneg
  · obtain ⟨d, ds, hd, hds, hp, hv⟩ := print_unsigned_eq z.natAbs
    have hall : ∀ x ∈ d :: ds, x < 10 := by
      intro x hx
      rcases List.mem_cons.mp hx with h | h
      · rw [h]; exact hd
      · exact hds x h
    have hscan := scan_digits_map rest hrest (d :: ds) hall 0 false
    simp only [List.map_cons, hv, ne_eq, reduceCtorEq, not_false_eq_true, or_true,
      if_true] at hscan
    unfold scan_integer
    rw [List.cons_append, skip_space_cons _ _ (by decide)]
    simp only [if_true]
    rw [hp, hscan]
    simp only [Option.some.injEq, Prod.mk.injEq, and_true]
    omega
  · rw [scan_integer_print_unsigned _ _ hrest]
    simp only [Option.some.injEq, Prod.mk.injEq, and_true]
    omega

/-- The text written by line 119 is read back by line 99 as the same two
numbers, when they fit `unsigned long long` and `int`. -/
theorem fscanf_fprintf (D_val : Nat) (total : Int) (hD : D_val < 2 ^ 64)
    (hlo : -(2 ^ 31) ≤ total) (hhi : total < 2 ^ 31) :
    fscanf_llu_d (fprintf_llu_d D_val total) = some (D_val, total) := by
  unfold fscanf_llu_d fprintf_llu_d
  rw [scan_integer_print_unsigned D_val _ (Or.inr ⟨' ', _, rfl, by decide⟩)]
  simp only
  have hskip : skip_space (' ' :: (print_int total ++ ['\n'])) = print_int total ++ ['\n'] := by
    have h1 : skip_space (' ' :: (print_int total ++ ['\n']))
        = skip_space (print_int total ++ ['\n']) := by
      simp [skip_space, is_space]
    rw [h1]
    unfold print_int
    split_ifs
    · rw [List.cons_append, skip_space_cons _ _ (by decide)]
    · obtain ⟨d, ds, hd, -, hp, -⟩ := print_unsigned_eq total.natAbs
      rw [hp, List.cons_append, skip_space_cons _ _ (digit_char_facts d hd).2.1]
  rw [hskip, scan_integer_print_int total _ (Or.inr ⟨'\n', _, rfl, by decide⟩)]
  simp only [Option.some.injEq, Prod.mk.injEq]
  constructor
  · unfold store_llu
    rw [if_neg (by simp only [Int.natAbs_ofNat]; omega)]
    have : ((D_val : Int) % 2 ^ 64) = D_val := Int.emod_eq_of_lt (by omega) (by omega)
    rw [this]; simp
  · unfold store_int
    simp only
    rw [min_eq_left (by omega), max_eq_right (by omega)]
    omega

/-! ## Emitted solutions and the sweep -/

/-- The Pell relation of an emitted solution, with `M * M` grouped. -/
theorem pell_relation_of_mem (D : Int) (limit : Nat) (p : PellSolution)
    (hp : p ∈ generate_pell_solutions D limit) : p.N * p.N = D + 2 * (p.M * p.M) := by
  obtain ⟨m, -, -, hN, hM⟩ := (mem_generate D limit p).mp hp
  rw [hN]
  rcases hM with h | h
  · rw [h]
  · rw [h]; ring

/-- The `continue` of line 210. -/
theorem derive_entries_of_ne (Y X V U : Int)
    (h : Y * Y + X * X * 2 ≠ V * V + U * U * 2) : derive_entries Y X V U = none := by
  unfold derive_entries
  split_ifs with hself
  · rfl
  · simp only
    rw [if_pos h]

/-- For `D_max = 2^64 - 1` the test `d <= D_max` never fails: the loop of line
179 does not end, whatever the number of iterations allowed. -/
theorem d_loop_never_ends :
    ∀ (fuel d : Nat), d < 2 ^ 64 → (d_loop (2 ^ 64 - 1) fuel d).2 = false := by
  intro fuel
  induction fuel with
  | zero => intro d _; rfl
  | succ fuel ih =>
    intro d hd
    rw [d_loop, if_pos (by omega)]
    exact ih _ (Nat.mod_lt _ (by norm_num))

/-- C1, generator soundness: every pair `(N, M)` that
`generate_pell_solutions D limit` writes, the sign-flipped variants included,
satisfies `N * N = D + 2 * M * M` exactly.  Nothing is assumed of `D`: the
statement holds for `D ≥ 0` and for negative `D` alike. -/
theorem generator_sound (D : Int) (limit : Nat) (p : PellSolution)
    (hp : p ∈ generate_pell_solutions D limit) :
    p.N * p.N = D + 2 * p.M * p.M := by
  obtain ⟨m, -, -, hN, hM⟩ := (mem_generate D limit p).mp hp
  rw [hN]
  rcases hM with h | h <;> rw [h] <;> ring

/-- The soundness theorem applied to the emitted pair `(-3, 1)` of `D = 7`. -/
theorem generator_sound_witness :
    (⟨-3, 1⟩ : PellSolution) ∈ generate_pell_solutions 7 5 ∧
      (-3 : Int) * (-3) = 7 + 2 * 1 * 1 :=
  ⟨by decide, generator_sound 7 5 ⟨-3, 1⟩ (by decide)⟩

/-- C2, generator completeness: every integer pair `(N, M)` with
`1 ≤ |M| ≤ limit` and `N * N = D + 2 * M * M` occurs in the output of
`generate_pell_solutions D limit`. -/
theorem generator_complete (D : Int) (limit : Nat) (N M : Int)
    (h1 : 1 ≤ |M|) (h2 : |M| ≤ (limit : Int)) (h : N * N = D + 2 * M * M) :
    (⟨N, M⟩ : PellSolution) ∈ generate_pell_solutions D limit := by
  rw [mem_generate]
  rw [Int.abs_eq_natAbs] at h1 h2
  refine ⟨M.natAbs, by omega, by omega, ?_, ?_⟩
  · simp only [Int.natCast_natAbs, abs_mul_abs_self]
    rw [h]; ring
  · simp only
    omega

/-- The completeness theorem applied to the solution `(-5, -3)` of `D = 7`. -/
theorem generator_complete_witness :
    (1 ≤ |(-3 : Int)| ∧ |(-3 : Int)| ≤ ((5 : Nat) : Int) ∧
      (-5 : Int) * (-5) = 7 + 2 * (-3) * (-3)) ∧
    (⟨-5, -3⟩ : PellSolution) ∈ generate_pell_solutions 7 5 :=
  ⟨by decide, generator_complete 7 5 (-5) (-3) (by decide) (by decide) (by decide)⟩

/-- C3, sign variants without duplicates: the output of
`generate_pell_solutions D limit` contains no pair twice; with every emitted
`(N, M)` it contains `(-N, M)`, `(N, -M)` and `(-N, -M)`; and a root pair
`(N, m)` (`1 ≤ m ≤ limit`, `N ≥ 0`, `N * N = D + 2 m^2`) contributes exactly
four entries when `N ≠ 0` and exactly two when `N = 0`. -/
theorem generator_sign_variants (D : Int) (limit : Nat) :
    (generate_pell_solutions D limit).Nodup ∧
    (∀ p ∈ generate_pell_solutions D limit,
      (⟨-p.N, p.M⟩ : PellSolution) ∈ generate_pell_solutions D limit ∧
      (⟨p.N, -p.M⟩ : PellSolution) ∈ generate_pell_solutions D limit ∧
      (⟨-p.N, -p.M⟩ : PellSolution) ∈ generate_pell_solutions D limit) ∧
    (∀ (m : Nat) (N : Int), 1 ≤ m → m ≤ limit → 0 ≤ N → N * N = D + 2 * ((m : Int) * m) →
      ((generate_pell_solutions D limit).filter
        (fun p => decide (p.M.natAbs = m))).length = if N = 0 then 2 else 4) := by
  refine ⟨generate_nodup D limit, ?_, ?_⟩
  · intro p hp
    obtain ⟨m, h1, h2, hN, hM⟩ := (mem_generate D limit p).mp hp
    refine ⟨?_, ?_, ?_⟩ <;> rw [mem_generate] <;> refine ⟨m, h1, h2, ?_, ?_⟩ <;>
      simp only [neg_mul_neg, hN] <;> omega
  · intro m N h1 h2 hN hroot
    rw [filter_generate D limit m h1 h2, pell_emitted_of_root D m N h1 hN hroot]
    unfold sign_group
    split_ifs <;> rfl

/-- The entry counts for `D = -2`: two for the root pair `(0, 1)`, four for `(4, 3)`. -/
theorem generator_sign_variants_witness :
    ((generate_pell_solutions (-2) 5).filter (fun p => decide (p.M.natAbs = 1))).length = 2 ∧
    ((generate_pell_solutions (-2) 5).filter (fun p => decide (p.M.natAbs = 3))).length = 4 :=
  ⟨(generator_sign_variants (-2) 5).2.2 1 0 (by decide) (by decide) (by decide) (by decide),
   (generator_sign_variants (-2) 5).2.2 3 4 (by decide) (by decide) (by decide) (by decide)⟩

/-- C4, perfect-square oracle: `is_perfect_square n` returns `true` exactly
when some integer `r` has `r * r = n`; for every negative `n` it returns
`false`. -/
theorem perfect_square_oracle (n : Int) :
    (is_perfect_square n = true ↔ ∃ r : Int, r * r = n) ∧
    (n < 0 → is_perfect_square n = false) := by
  refine ⟨is_perfect_square_iff n, ?_⟩
  intro hn
  unfold is_perfect_square
  rw [if_pos hn]

/-- The oracle on `49` and on the negative number `-4`. -/
theorem perfect_square_oracle_witness :
    (is_perfect_square 49 = true ↔ ∃ r : Int, r * r = 49) ∧
    is_perfect_square (-4) = false :=
  ⟨(perfect_square_oracle 49).1, (perfect_square_oracle (-4)).2 (by decide)⟩

/-- C6, assembler formulas, evaluated on the code: for the pair `(3, 1)`,
`(-3, 1)` of `D = 7` (both emitted, the pair passes the self-pairing and
`e1 == e2` checks) the code hands the oracle `b2 = -6`, `d2 = 81`, `f2 = 81`,
`h2 = -63`, `i2 = 153`, `g2 = 153` and sets the centre cell to `81`, while the
formulas in `e = e1 / 2 = 5`, `a = 3`, `c = 3` give `57, 25, 25, -7, 41, 41`
and the centre `25`: the variable `e` no longer holds `e1 / 2` when the
entries are computed. -/
theorem assembler_formulas_diverge :
    ((⟨3, 1⟩ : PellSolution) ∈ generate_pell_solutions 7 5 ∧
      (⟨-3, 1⟩ : PellSolution) ∈ generate_pell_solutions 7 5) ∧
    derive_entries 3 1 (-3) 1 = some ⟨9, 3, 3, -6, 81, 81, -63, 153, 153⟩ ∧
    (assemble_square ⟨9, 3, 3, -6, 81, 81, -63, 153, 153⟩).E = 81 ∧
    spec_entries 3 1 (-3) 1 = ⟨5, 3, 3, 57, 25, 25, -7, 41, 41⟩ ∧
    derive_entries 3 1 (-3) 1 ≠ some (spec_entries 3 1 (-3) 1) := by
  decide

/-- C7, the claim refuted: no four integers `Y, X, V, U` take the pair body to
its accept branch, so no two pairs make the assembler yield a grid. -/
theorem no_pair_is_accepted :
    ¬ ∃ Y X V U : Int, (pair_body Y X V U).isSome = true := by
  rintro ⟨Y, X, V, U, h⟩
  rw [pair_body_eq_none] at h
  exact absurd h (by decide)

/-- C7 as amended: two Pell solution pairs `(Y, X)`, `(V, U)` of one
discriminant `D` are never accepted; whenever the body gets past its two
`continue`s, `a_val` and `c_val` are the same number `floor(D / 2)`, so the
cells `A` and `C` coincide. -/
theorem same_discriminant_pair_rejected (D Y X V U : Int)
    (h1 : Y * Y = D + 2 * X * X) (h2 : V * V = D + 2 * U * U) :
    pair_body Y X V U = none ∧
    ∀ r : Derived, derive_entries Y X V U = some r →
      r.a_val = Int.fdiv D 2 ∧ r.c_val = Int.fdiv D 2 ∧
        (assemble_square r).A = (assemble_square r).C := by
  refine ⟨pair_body_eq_none Y X V U, ?_⟩
  intro r hr
  obtain ⟨-, -, ha, hc, -⟩ := derive_entries_some Y X V U r hr
  have e1 : Y * Y - X * X * 2 = D := by rw [h1]; ring
  have e2 : V * V - U * U * 2 = D := by rw [h2]; ring
  rw [e1] at ha
  rw [e2] at hc
  refine ⟨ha, hc, ?_⟩
  simp only [assemble_square, ha, hc]

/-- The pair `(3, 1)`, `(-3, 1)` of `D = 7`: it reaches the oracle test with
`a_val = c_val = 3`, its cells `A` and `C` are both `9`, and it is not
accepted. -/
theorem same_discriminant_pair_rejected_witness :
    ((3 : Int) * 3 = 7 + 2 * 1 * 1 ∧ (-3 : Int) * (-3) = 7 + 2 * 1 * 1 ∧
      derive_entries 3 1 (-3) 1 = some ⟨9, 3, 3, -6, 81, 81, -63, 153, 153⟩) ∧
    pair_body 3 1 (-3) 1 = none ∧
    (3 : Int) = Int.fdiv 7 2 ∧
    (assemble_square ⟨9, 3, 3, -6, 81, 81, -63, 153, 153⟩).A
      = (assemble_square ⟨9, 3, 3, -6, 81, 81, -63, 153, 153⟩).C :=
  ⟨by decide,
    (same_discriminant_pair_rejected 7 3 1 (-3) 1 (by decide) (by decide)).1,
    ((same_discriminant_pair_rejected 7 3 1 (-3) 1 (by decide) (by decide)).2
      ⟨9, 3, 3, -6, 81, 81, -63, 153, 153⟩ (by decide)).1,
    ((same_discriminant_pair_rejected 7 3 1 (-3) 1 (by decide) (by decide)).2
      ⟨9, 3, 3, -6, 81, 81, -63, 153, 153⟩ (by decide)).2.2⟩

set_option maxRecDepth 8000 in
/-- C8, the claim refuted: with `sizeof(PellSolution) = 32` and
`limit = 2^56 + 1` the size passed to `malloc` wraps to `256` bytes, `8` slots,
not `8 * limit`; the output for `D = 7` begins with the twelve entries found
up to `m = 9`, so the indices `8, ..., 11` are written past the buffer. -/
theorem buffer_size_wraps :
    malloc_request 32 (2 ^ 56 + 1) = 256 ∧ sols_capacity 32 (2 ^ 56 + 1) = 8 ∧
    generate_pell_solutions 7 9 =
      [⟨3, 1⟩, ⟨-3, 1⟩, ⟨3, -1⟩, ⟨-3, -1⟩, ⟨5, 3⟩, ⟨-5, 3⟩, ⟨5, -3⟩, ⟨-5, -3⟩,
        ⟨13, 9⟩, ⟨-13, 9⟩, ⟨13, -9⟩, ⟨-13, -9⟩] ∧
    (∃ rest : List PellSolution,
      generate_pell_solutions 7 (2 ^ 56 + 1) = generate_pell_solutions 7 9 ++ rest) ∧
    ¬ (∀ i : Nat, i < (generate_pell_solutions 7 (2 ^ 56 + 1)).length →
        i < sols_capacity 32 (2 ^ 56 + 1)) := by
  have hcap : sols_capacity 32 (2 ^ 56 + 1) = 8 := by decide
  have hpre := generate_prefix 7 9 (2 ^ 56 + 1 - 9)
  have hsum : 9 + (2 ^ 56 + 1 - 9) = 2 ^ 56 + 1 := by norm_num
  rw [hsum] at hpre
  have hlist : generate_pell_solutions 7 9 =
      [⟨3, 1⟩, ⟨-3, 1⟩, ⟨3, -1⟩, ⟨-3, -1⟩, ⟨5, 3⟩, ⟨-5, 3⟩, ⟨5, -3⟩, ⟨-5, -3⟩,
        ⟨13, 9⟩, ⟨-13, 9⟩, ⟨13, -9⟩, ⟨-13, -9⟩] := by decide
  have h9 : (generate_pell_solutions 7 9).length = 12 := by rw [hlist]; rfl
  refine ⟨by decide, hcap, hlist, ⟨_, hpre⟩, ?_⟩
  intro hall
  have h8 := hall 8 (by rw [hpre, List.length_append, h9]; omega)
  rw [hcap] at h8
  omega

/-- C8 as amended: when the byte size `4 * limit * 2 * sizeof(PellSolution)`
of line 139 does not wrap in 64-bit arithmetic, `generate_pell_solutions D limit`
returns `count ≤ 4 * limit`, the block requested for `sols` has `8 * limit`
slots, and every index written (the positions `0, ..., count - 1` of the
output) is below that number. -/
theorem generator_length_bound (D : Int) (limit entry_size : Nat)
    (hsize : 0 < entry_size) (hbytes : 4 * limit * 2 * entry_size < 2 ^ 64) :
    (generate_pell_solutions D limit).length ≤ 4 * limit ∧
    sols_capacity entry_size limit = 8 * limit ∧
    ∀ i : Nat, i < (generate_pell_solutions D limit).length →
      i < sols_capacity entry_size limit := by
  have hlen := generate_length_le D limit
  have hcap := sols_capacity_eq entry_size limit hsize hbytes
  refine ⟨hlen, hcap, ?_⟩
  intro i hi
  rw [hcap]
  omega

/-- The sizes of `main` (`pell_limit = 100000000`, 32-byte entries) do not
wrap; for `D = 7`, `limit = 5` the last index written is `7`, below the `40`
slots. -/
theorem generator_length_bound_witness :
    ((0 : Nat) < 32 ∧ 4 * 100000000 * 2 * 32 < 2 ^ 64 ∧ 4 * 5 * 2 * 32 < 2 ^ 64 ∧
      (7 : Nat) < (generate_pell_solutions 7 5).length) ∧
    sols_capacity 32 100000000 = 8 * 100000000 ∧
    7 < sols_capacity 32 5 :=
  ⟨by decide,
    (generator_length_bound 7 100000000 32 (by decide) (by decide)).2.1,
    (generator_length_bound 7 5 32 (by decide) (by decide)).2.2 7 (by decide)⟩

/-- C9, output order: the output of `generate_pell_solutions D limit` is the
concatenation, for `m = 1, ..., limit` in increasing order, of one group per
`m`: the sign group `(N, m), (-N, m), (N, -m), (-N, -m)` (without the `-N`
entries when `N = 0`) when `D + 2 m^2` is the square of `N ≥ 0`, and nothing
when `D + 2 m^2` is not a square.  For `D = 7`, `limit = 5` the output is
`(3,1), (-3,1), (3,-1), (-3,-1), (5,3), (-5,3), (5,-3), (-5,-3)`. -/
theorem generator_output_order (D : Int) (limit : Nat) :
    (∃ groups : Nat → List PellSolution,
      generate_pell_solutions D limit = (List.range' 1 limit).flatMap groups ∧
      ∀ m : Nat, 1 ≤ m →
        (∀ N : Int, 0 ≤ N → N * N = D + 2 * ((m : Int) * m) → groups m = sign_group N m) ∧
        ((¬ ∃ N : Int, N * N = D + 2 * ((m : Int) * m)) → groups m = [])) ∧
    generate_pell_solutions 7 5 =
      [⟨3, 1⟩, ⟨-3, 1⟩, ⟨3, -1⟩, ⟨-3, -1⟩, ⟨5, 3⟩, ⟨-5, 3⟩, ⟨5, -3⟩, ⟨-5, -3⟩] := by
  refine ⟨⟨pell_emitted D, generate_eq_flatMap D limit, fun m hm => ⟨?_, ?_⟩⟩, by decide⟩
  · intro N hN hroot
    exact pell_emitted_of_root D m N hm hN hroot
  · exact pell_emitted_of_not_square D m

/-- The groups of `D = 7`: `m = 1` has the root `3`, `m = 2` gives `15`, not a
square. -/
theorem generator_output_order_witness :
    ∃ groups : Nat → List PellSolution,
      generate_pell_solutions 7 5 = (List.range' 1 5).flatMap groups ∧
      groups 1 = sign_group 3 1 ∧ groups 2 = [] := by
  obtain ⟨groups, hcat, hgroups⟩ := (generator_output_order 7 5).1
  refine ⟨groups, hcat, (hgroups 1 (by decide)).1 3 (by decide) (by decide),
    (hgroups 2 (by decide)).2 ?_⟩
  rintro ⟨N, hN⟩
  have h15 : N * N = 15 := by rw [hN]; norm_num
  have hlo : -4 < N := by nlinarith
  have hhi : N < 4 := by nlinarith
  interval_cases N <;> omega

/-- C10, the claim refuted: with `D_min = 0`, `D_max = 10` and the loaded
value `s = 20` the sweep starts at `0`, while `20` clamped into `[0, 10]`
is `10`. -/
theorem start_value_not_clamped :
    (swept_discriminants 0 10 20).head? = some 0 ∧ clamp_into 0 10 20 = 10 ∧
    (swept_discriminants 0 10 20).head? ≠ some (clamp_into 0 10 20) := by
  decide

/-- C10 as amended: for `D_min ≤ D_max` the first discriminant processed is the
loaded value `s` when `D_min ≤ s ≤ D_max`, and `D_min` when `s` lies outside the
range on either side. -/
theorem first_discriminant_processed (D_min D_max s : Nat) (h : D_min ≤ D_max) :
    (swept_discriminants D_min D_max s).head? =
      some (if D_min ≤ s ∧ s ≤ D_max then s else D_min) := by
  unfold swept_discriminants start_D
  rw [List.head?_range']
  split_ifs <;> first | omega | rfl

/-- The three cases for the range `[3, 10]`: `s = 7` inside, `s = 20` above,
`s = 1` below. -/
theorem first_discriminant_processed_witness :
    (3 : Nat) ≤ 10 ∧
    (swept_discriminants 3 10 7).head? = some 7 ∧
    (swept_discriminants 3 10 20).head? = some 3 ∧
    (swept_discriminants 3 10 1).head? = some 3 :=
  ⟨by decide, first_discriminant_processed 3 10 7 (by decide),
    first_discriminant_processed 3 10 20 (by decide),
    first_discriminant_processed 3 10 1 (by decide)⟩

/-- C12, checkpoint round trip: when `save_checkpoint(D_val, total_candidates)`
opens the file and writes it, with `D_val` an `unsigned long long` and
`total_candidates` an `int`, the next `load_checkpoint` returns exactly
`(D_val, total_candidates)`, whatever the file held before. -/
theorem checkpoint_round_trip (file : Option (List Char)) (D_val : Nat) (total : Int)
    (hD : D_val < 2 ^ 64) (hlo : -(2 ^ 31) ≤ total) (hhi : total < 2 ^ 31) :
    load_checkpoint (save_checkpoint true file D_val total) = (D_val, total) := by
  unfold load_checkpoint save_checkpoint
  simp only [if_true]
  rw [fscanf_fprintf D_val total hD hlo hhi]

/-- The extreme values of both types and the text written for `(42, -7)`. -/
theorem checkpoint_round_trip_witness :
    ((18446744073709551615 : Nat) < 2 ^ 64 ∧ -(2 ^ 31) ≤ (-2147483648 : Int) ∧
      (-2147483648 : Int) < 2 ^ 31) ∧
    load_checkpoint (save_checkpoint true none 18446744073709551615 (-2147483648))
      = (18446744073709551615, -2147483648) ∧
    save_checkpoint true none 42 (-7) = some ['4', '2', ' ', '-', '7', '\n'] :=
  ⟨by decide,
    checkpoint_round_trip none 18446744073709551615 (-2147483648)
      (by decide) (by decide) (by decide),
    by decide⟩

/-- C13, the grid relations define a magic square: for all integers `A`, `C`,
`E` the grid with `B = 3E - A - C`, `D = E + C - A`, `F = E + A - C`,
`G = 2E - C`, `I = 2E - A`, `H = A + C - E`, as the brute-force search computes
it, has its three rows, three columns and two diagonals all summing to `3E`. -/
theorem grid_relations_magic (A C E : Int) :
    (derived_grid A E C).A = A ∧ (derived_grid A E C).C = C ∧ (derived_grid A E C).E = E ∧
    (derived_grid A E C).A + (derived_grid A E C).B + (derived_grid A E C).C = 3 * E ∧
    (derived_grid A E C).D_cell + (derived_grid A E C).E + (derived_grid A E C).F = 3 * E ∧
    (derived_grid A E C).G + (derived_grid A E C).H + (derived_grid A E C).I = 3 * E ∧
    (derived_grid A E C).A + (derived_grid A E C).D_cell + (derived_grid A E C).G = 3 * E ∧
    (derived_grid A E C).B + (derived_grid A E C).E + (derived_grid A E C).H = 3 * E ∧
    (derived_grid A E C).C + (derived_grid A E C).F + (derived_grid A E C).I = 3 * E ∧
    (derived_grid A E C).A + (derived_grid A E C).E + (derived_grid A E C).I = 3 * E ∧
    (derived_grid A E C).C + (derived_grid A E C).E + (derived_grid A E C).G = 3 * E := by
  refine ⟨rfl, rfl, rfl, ?_, ?_, ?_, ?_, ?_, ?_, ?_, ?_⟩ <;> simp only [derived_grid] <;> ring

/-- C14, the claim refuted: `D = -14` has `D + 2 * 1^2 < 0`, yet with
`limit = 3` the generator emits the four sign variants of `(2, 3)`, since
`-14 + 2 * 3^2 = 4`. -/
theorem negative_discriminant_emits :
    (-14 : Int) + 2 * 1 * 1 < 0 ∧
    generate_pell_solutions (-14) 3 = [⟨2, 3⟩, ⟨-2, 3⟩, ⟨2, -3⟩, ⟨-2, -3⟩] := by
  decide

/-- C14 as amended: an iteration whose candidate `D + 2 m^2` is negative leaves
the buffer as it is (the `continue` of line 44, before the oracle is called);
no emitted `(N, M)` has a negative candidate `D + 2 M^2`; and when the
candidate of `M = limit` is negative, as are then those of all smaller `M`,
nothing at all is emitted. -/
theorem negative_candidates_skipped (D : Int) (limit : Nat) :
    (∀ (m : Nat) (sols : List PellSolution), D + 2 * ((m : Int) * m) < 0 →
      pell_iteration D m sols = sols) ∧
    (∀ p ∈ generate_pell_solutions D limit, 0 ≤ D + 2 * (p.M * p.M)) ∧
    (D + 2 * ((limit : Int) * limit) < 0 → generate_pell_solutions D limit = []) := by
  have hskip : ∀ m : Nat, D + 2 * ((m : Int) * m) < 0 → pell_emitted D m = [] := by
    intro m hm
    rw [pell_emitted_eq, if_pos (by linarith)]
  refine ⟨?_, ?_, ?_⟩
  · intro m sols hm
    rw [pell_iteration_eq, hskip m hm, List.append_nil]
  · intro p hp
    rw [← pell_relation_of_mem D limit p hp]
    exact mul_self_nonneg p.N
  · intro hneg
    rw [generate_eq_flatMap, List.flatMap_eq_nil_iff]
    intro m hm
    rw [List.mem_range'_1] at hm
    apply hskip
    have hmle : (m : Int) ≤ limit := by omega
    have hm0 : (0 : Int) ≤ m := by omega
    nlinarith

/-- For `D = -14`: the iterations `m = 1, 2` are skipped, so `limit = 2` gives
the empty output, and the emitted `(2, 3)` has the candidate `4`. -/
theorem negative_candidates_skipped_witness :
    ((-14 : Int) + 2 * (((2 : Nat) : Int) * (2 : Nat)) < 0 ∧
      (⟨2, 3⟩ : PellSolution) ∈ generate_pell_solutions (-14) 3) ∧
    pell_iteration (-14) 2 [] = [] ∧
    (0 : Int) ≤ -14 + 2 * (3 * 3) ∧
    generate_pell_solutions (-14) 2 = [] :=
  ⟨by decide,
    (negative_candidates_skipped (-14) 2).1 2 [] (by decide),
    (negative_candidates_skipped (-14) 3).2.1 ⟨2, 3⟩ (by decide),
    (negative_candidates_skipped (-14) 2).2.2 (by decide)⟩

/-- C16, the claim refuted: `(3, 1)` and `(5, 3)` are both emitted for
`D = 7`, with `e1 = 3^2 + 2 * 1^2 = 11` and `e2 = 5^2 + 2 * 3^2 = 43`; the
check of line 210 rejects the pair. -/
theorem e1_e2_differ_within_discriminant :
    ((⟨3, 1⟩ : PellSolution) ∈ generate_pell_solutions 7 5 ∧
      (⟨5, 3⟩ : PellSolution) ∈ generate_pell_solutions 7 5) ∧
    (3 : Int) * 3 + 2 * 1 * 1 = 11 ∧ (5 : Int) * 5 + 2 * 3 * 3 = 43 ∧
    (3 : Int) * 3 + 2 * 1 * 1 ≠ 5 * 5 + 2 * 3 * 3 ∧
    derive_entries 3 1 5 3 = none := by
  decide

/-- C16 as amended: for two solutions `(Y, X)`, `(V, U)` emitted for one `D`,
`e1 = Y^2 + 2 X^2` is `D + 4 X^2` and `e2 = V^2 + 2 U^2` is `D + 4 U^2`; they
are equal exactly when `|X| = |U|`, and a pair with `|X| ≠ |U|` is rejected by
the `e1 != e2` check. -/
theorem e1_e2_within_discriminant (D : Int) (limit : Nat) (p q : PellSolution)
    (hp : p ∈ generate_pell_solutions D limit) (hq : q ∈ generate_pell_solutions D limit) :
    p.N * p.N + p.M * p.M * 2 = D + 4 * (p.M * p.M) ∧
    q.N * q.N + q.M * q.M * 2 = D + 4 * (q.M * q.M) ∧
    (p.N * p.N + p.M * p.M * 2 = q.N * q.N + q.M * q.M * 2 ↔ |p.M| = |q.M|) ∧
    (|p.M| ≠ |q.M| → derive_entries p.N p.M q.N q.M = none) := by
  have h1 := pell_relation_of_mem D limit p hp
  have h2 := pell_relation_of_mem D limit q hq
  have hiff : p.N * p.N + p.M * p.M * 2 = q.N * q.N + q.M * q.M * 2 ↔ |p.M| = |q.M| := by
    rw [← sq_eq_sq_iff_abs_eq_abs, h1, h2]
    constructor
    · intro h; nlinarith
    · intro h; nlinarith
  refine ⟨by rw [h1]; ring, by rw [h2]; ring, hiff, ?_⟩
  intro hne
  exact derive_entries_of_ne _ _ _ _ (fun h => hne (hiff.mp h))

/-- The solutions `(3, 1)`, `(5, 3)` and `(3, 1)`, `(-3, -1)` of `D = 7`. -/
theorem e1_e2_within_discriminant_witness :
    ((⟨3, 1⟩ : PellSolution) ∈ generate_pell_solutions 7 5 ∧
      (⟨5, 3⟩ : PellSolution) ∈ generate_pell_solutions 7 5 ∧
      (⟨-3, -1⟩ : PellSolution) ∈ generate_pell_solutions 7 5 ∧ |(1 : Int)| ≠ |(3 : Int)|) ∧
    (3 : Int) * 3 + 1 * 1 * 2 = 7 + 4 * (1 * 1) ∧
    derive_entries 3 1 5 3 = none ∧
    ((3 : Int) * 3 + 1 * 1 * 2 = (-3) * (-3) + (-1) * (-1) * 2 ↔ |(1 : Int)| = |(-1 : Int)|) :=
  ⟨by decide,
    (e1_e2_within_discriminant 7 5 ⟨3, 1⟩ ⟨5, 3⟩ (by decide) (by decide)).1,
    (e1_e2_within_discriminant 7 5 ⟨3, 1⟩ ⟨5, 3⟩ (by decide) (by decide)).2.2.2 (by decide),
    (e1_e2_within_discriminant 7 5 ⟨3, 1⟩ ⟨-3, -1⟩ (by decide) (by decide)).2.2.1⟩

/-- C17, the claim refuted: for the solution `(3, 1)` emitted for `D = 7` the
dividends `3^2 + 2 * 1^2 = 11` and `3^2 - 2 * 1^2 = 7` are odd, and the
divisions by `2` give `5` and `3`, not exact. -/
theorem dividends_odd_for_odd_discriminant :
    (⟨3, 1⟩ : PellSolution) ∈ generate_pell_solutions 7 5 ∧
    ¬ (2 : Int) ∣ 3 * 3 + 2 * 1 * 1 ∧ ¬ (2 : Int) ∣ 3 * 3 - 2 * 1 * 1 ∧
    Int.fdiv (3 * 3 + 2 * 1 * 1) 2 = 5 ∧ Int.fdiv (3 * 3 - 2 * 1 * 1) 2 = 3 ∧
    Int.fdiv (3 * 3 + 2 * 1 * 1) 2 * 2 ≠ 3 * 3 + 2 * 1 * 1 ∧
    Int.fdiv (3 * 3 - 2 * 1 * 1) 2 * 2 ≠ 3 * 3 - 2 * 1 * 1 := by
  decide

/-- C17 as amended: for a solution `(Y, X)` emitted for `D` the dividends are
`Y^2 + 2 X^2 = D + 4 X^2` and `Y^2 - 2 X^2 = D`; each is even exactly when `D`
is even, and for even `D` the divisions by `2` are exact. -/
theorem dividend_parity (D : Int) (limit : Nat) (p : PellSolution)
    (hp : p ∈ generate_pell_solutions D limit) :
    p.N * p.N + p.M * p.M * 2 = D + 4 * (p.M * p.M) ∧
    p.N * p.N - p.M * p.M * 2 = D ∧
    ((2 : Int) ∣ p.N * p.N + p.M * p.M * 2 ↔ (2 : Int) ∣ D) ∧
    ((2 : Int) ∣ p.N * p.N - p.M * p.M * 2 ↔ (2 : Int) ∣ D) ∧
    ((2 : Int) ∣ D →
      Int.fdiv (p.N * p.N + p.M * p.M * 2) 2 * 2 = p.N * p.N + p.M * p.M * 2 ∧
      Int.fdiv (p.N * p.N - p.M * p.M * 2) 2 * 2 = p.N * p.N - p.M * p.M * 2) := by
  have h1 := pell_relation_of_mem D limit p hp
  have e1 : p.N * p.N + p.M * p.M * 2 = D + 4 * (p.M * p.M) := by rw [h1]; ring
  have e2 : p.N * p.N - p.M * p.M * 2 = D := by rw [h1]; ring
  have hfdiv : ∀ x : Int, (2 : Int) ∣ x → Int.fdiv x 2 * 2 = x := by
    intro x hx
    rw [Int.fdiv_eq_ediv x (by decide : (0 : Int) ≤ 2)]
    exact Int.ediv_mul_cancel hx
  refine ⟨e1, e2, ?_, ?_, ?_⟩
  · rw [e1]; omega
  · rw [e2]
  · intro hD
    refine ⟨hfdiv _ ?_, hfdiv _ ?_⟩
    · rw [e1]; omega
    · rw [e2]; exact hD

/-- The solution `(2, 1)` of the even `D = 2`: dividends `6` and `2`. -/
theorem dividend_parity_witness :
    ((⟨2, 1⟩ : PellSolution) ∈ generate_pell_solutions 2 5 ∧ (2 : Int) ∣ 2) ∧
    (2 : Int) * 2 + 1 * 1 * 2 = 2 + 4 * (1 * 1) ∧
    (Int.fdiv (2 * 2 + 1 * 1 * 2) 2 * 2 = 2 * 2 + 1 * 1 * 2 ∧
      Int.fdiv (2 * 2 - 1 * 1 * 2) 2 * 2 = 2 * 2 - 1 * 1 * 2) :=
  ⟨by decide,
    (dividend_parity 2 5 ⟨2, 1⟩ (by decide)).1,
    (dividend_parity 2 5 ⟨2, 1⟩ (by decide)).2.2.2.2 (by decide)⟩

/-- C18, the assembler as coded never accepts: for all integers `Y`, `X`, `V`,
`U` the pair body does not reach its accept branch; either the pair is skipped
by the self-pairing or the `e1 != e2` check, or one of `b2, d2, f2, h2, i2, g2`
fails the oracle, or two of the nine cells are equal. -/
theorem assembler_never_accepts (Y X V U : Int) :
    pair_body Y X V U = none ∧
    (derive_entries Y X V U = none ∨
      ∃ r : Derived, derive_entries Y X V U = some r ∧
        (passes_oracle r = false ∨ ¬ (assemble_square r).square.Nodup)) := by
  have hnone := pair_body_eq_none Y X V U
  refine ⟨hnone, ?_⟩
  unfold pair_body at hnone
  cases hder : derive_entries Y X V U with
  | none => exact Or.inl rfl
  | some r =>
    right
    refine ⟨r, rfl, ?_⟩
    rw [hder] at hnone
    simp only at hnone
    by_cases hpass : passes_oracle r = true
    · right
      rw [if_pos hpass] at hnone
      rw [← unique_check_iff]
      intro hu
      rw [if_pos hu] at hnone
      exact absurd hnone (by simp)
    · left
      simpa using hpass

/-- C19, `a` and `c` coincide within one discriminant: for two solutions
`(Y, X)`, `(V, U)` emitted for one `D` the quotients `(Y^2 - 2 X^2) / 2` and
`(V^2 - 2 U^2) / 2` are both `floor(D / 2)`; whenever the pair body computes
its entries, `a_val` and `c_val` are that number, the cells `A` and `C` are
equal, and the uniqueness check on the assembled square fails.  Nothing is
assumed of the sign of `D`. -/
theorem a_c_coincide (D : Int) (limit : Nat) (p q : PellSolution)
    (hp : p ∈ generate_pell_solutions D limit) (hq : q ∈ generate_pell_solutions D limit) :
    Int.fdiv (p.N * p.N - p.M * p.M * 2) 2 = Int.fdiv D 2 ∧
    Int.fdiv (q.N * q.N - q.M * q.M * 2) 2 = Int.fdiv D 2 ∧
    ∀ r : Derived, derive_entries p.N p.M q.N q.M = some r →
      r.a_val = Int.fdiv D 2 ∧ r.c_val = Int.fdiv D 2 ∧
      (assemble_square r).A = (assemble_square r).C ∧
      unique_check (assemble_square r).square = false := by
  have h1 := pell_relation_of_mem D limit p hp
  have h2 := pell_relation_of_mem D limit q hq
  have e1 : p.N * p.N - p.M * p.M * 2 = D := by rw [h1]; ring
  have e2 : q.N * q.N - q.M * q.M * 2 = D := by rw [h2]; ring
  refine ⟨by rw [e1], by rw [e2], ?_⟩
  intro r hr
  obtain ⟨-, -, ha, hc, -⟩ := derive_entries_some _ _ _ _ r hr
  rw [e1] at ha
  rw [e2] at hc
  have hAC : (assemble_square r).A = (assemble_square r).C := by
    simp only [assemble_square, ha, hc]
  refine ⟨ha, hc, hAC, ?_⟩
  rw [Bool.eq_false_iff, ne_eq, unique_check_iff]
  intro hnd
  simp only [CandidateGrid.square, List.nodup_cons, List.mem_cons, not_or] at hnd
  exact hnd.1.2.1 hAC

/-- The solutions `(3, 1)`, `(-3, 1)` of `D = 7`: `a_val = c_val = 3`, the cells
`A` and `C` are both `9`. -/
theorem a_c_coincide_witness :
    ((⟨3, 1⟩ : PellSolution) ∈ generate_pell_solutions 7 5 ∧
      (⟨-3, 1⟩ : PellSolution) ∈ generate_pell_solutions 7 5 ∧
      derive_entries 3 1 (-3) 1 = some ⟨9, 3, 3, -6, 81, 81, -63, 153, 153⟩) ∧
    Int.fdiv ((3 : Int) * 3 - 1 * 1 * 2) 2 = Int.fdiv 7 2 ∧
    (3 : Int) = Int.fdiv 7 2 ∧
    unique_check (assemble_square ⟨9, 3, 3, -6, 81, 81, -63, 153, 153⟩).square = false :=
  ⟨by decide,
    (a_c_coincide 7 5 ⟨3, 1⟩ ⟨-3, 1⟩ (by decide) (by decide)).1,
    ((a_c_coincide 7 5 ⟨3, 1⟩ ⟨-3, 1⟩ (by decide) (by decide)).2.2
      ⟨9, 3, 3, -6, 81, 81, -63, 153, 153⟩ (by decide)).1,
    ((a_c_coincide 7 5 ⟨3, 1⟩ ⟨-3, 1⟩ (by decide) (by decide)).2.2
      ⟨9, 3, 3, -6, 81, 81, -63, 153, 153⟩ (by decide)).2.2.2⟩

end ParkerSquare
